import Mathlib

/-!
Verification of the word-frequency web crawler (`webcrawler.py`).

The Python source is shallowly embedded:

* the Python `dict` built by `count_occurrences_in` is an association list
  `List (String × Nat)` whose key order is insertion order, exactly as a
  Python `dict` preserves it;
* `sorted(..., key=lambda item: item[1], reverse=True)` is a stable sort
  placing larger counts first; it is embedded as `List.insertionSort`
  with the relation "left count ≥ right count", which is stable in the
  same way;
* network access is abstracted by a `Web` record giving, for each URL,
  the tokens of its page and its extracted links (the crawl claims are
  about which pages are visited, assuming fetches succeed);
* fallible Python code (`exit(1)`, `AttributeError` on `link.get('href')`
  being `None`, `IndexError` on `word[0]` of an empty word) is embedded
  with `Except` / an explicit result type;
* Python `int` parameters (`min_length`, `depth`) are `Int`.
-/

/-- One iteration of the dict update in `count_occurrences_in`
(`webcrawler.py` lines 52-56): if the word is already a key its count is
incremented in place (key keeps its position), otherwise the word is
appended as a new key with count 1, as a Python dict does. -/
def bump (w : String) : List (String × Nat) → List (String × Nat)
  | [] => [(w, 1)]
  | (x, c) :: rest => if x = w then (x, c + 1) :: rest else (x, c) :: bump w rest

/-- The loop body of `count_occurrences_in` (lines 49-56): words shorter
than `min_length` are skipped (`continue`), the rest update the dict. -/
def count_step (min_length : Int) (tbl : List (String × Nat)) (w : String) :
    List (String × Nat) :=
  if (w.length : Int) < min_length then tbl else bump w tbl

/-- `count_occurrences_in` (`webcrawler.py` lines 31-57): scan the word
list once, building the word → occurrence-count table. -/
def count_occurrences_in (word_list : List String) (min_length : Int) :
    List (String × Nat) :=
  word_list.foldl (count_step min_length) []

/-- The comparison used by `sorted(occurences.items(), key=lambda item:
item[1], reverse=True)`: `p` may precede `q` when `p`'s count is at least
`q`'s. -/
def count_ge (p q : String × Nat) : Prop := q.2 ≤ p.2

instance : DecidableRel count_ge := fun p q => Nat.decLe q.2 p.2

instance : IsTotal (String × Nat) count_ge := ⟨fun p q => le_total q.2 p.2⟩

instance : IsTrans (String × Nat) count_ge :=
  ⟨fun _ _ _ h h' => le_trans h' h⟩

/-- `get_top_words_from` (`webcrawler.py` lines 111-123): count, then sort
the table entries by count, descending.  Python's `sorted` is stable;
`List.insertionSort` with `count_ge` is the same stable descending sort. -/
def get_top_words_from (all_words : List String) (length : Int) :
    List (String × Nat) :=
  List.insertionSort count_ge (count_occurrences_in all_words length)

example :
    count_occurrences_in ["Cat", "cat", "dog", "DOG", "dog"] 0 =
      [("Cat", 1), ("cat", 1), ("dog", 2), ("DOG", 1)] := by decide

example :
    get_top_words_from ["Cat", "cat", "dog", "DOG", "dog"] 0 =
      [("dog", 2), ("Cat", 1), ("cat", 1), ("DOG", 1)] := by decide

/-- An HTTP response as `requests.get` returns it: a status code and the
decoded body text. -/
structure HttpResponse where
  status_code : Nat
  content : String

/-- Outcome of `get_html_of` (`webcrawler.py` lines 9-29): either the
decoded body, or process termination via `exit code` after `msg` was
printed to standard output. -/
inductive FetchResult where
  | ok (body : String)
  | exited (code : Nat) (msg : String)
deriving DecidableEq

/-- `get_html_of` (lines 23-29), with the network abstracted away: the
response for the requested URL is passed in.  A status other than 200
prints the diagnostic and exits the process with code 1; otherwise the
decoded body is returned. -/
def get_html_of (resp : HttpResponse) : FetchResult :=
  if resp.status_code ≠ 200 then
    FetchResult.exited 1
      ("HTTP status code of " ++ toString resp.status_code ++
        " returned, expected 200...Exiting.")
  else FetchResult.ok resp.content

/-- A parsed document, for the link extractor: the sequence of `<a>`
elements in document order, each carrying its `href` attribute value, or
`none` when the attribute is absent (Python's `link.get('href')`). -/
abbrev Anchors := List (Option String)

/-- The body of the loop in `get_links` (lines 74-76): walk the anchors,
keeping each `href` value that starts with `"http"`.  An anchor without
`href` makes `link.get('href').startswith('http')` raise
`AttributeError` (`None` has no `startswith`), which aborts the call. -/
def extract_hrefs : Anchors → Except Unit (List String)
  | [] => Except.ok []
  | none :: _ => Except.error ()
  | some h :: rest =>
      match extract_hrefs rest with
      | Except.error e => Except.error e
      | Except.ok tail =>
          Except.ok (if h.startsWith "http" then h :: tail else tail)

/-- One dict-key insertion of `dict.fromkeys`: a key already present is
ignored, a new key is appended at the end. -/
def dstep (acc : List String) (x : String) : List String :=
  if x ∈ acc then acc else acc ++ [x]

/-- `list(dict.fromkeys(href_urls))` (line 77): keep the first occurrence
of each element, in first-seen order, exactly as dict key insertion
does. -/
def dedupFirst (l : List String) : List String :=
  l.foldl dstep []

/-- `get_links` (lines 59-77): collect the `http`-prefixed `href` values
and remove duplicates keeping first-seen order. -/
def get_links (anchors : Anchors) : Except Unit (List String) :=
  match extract_hrefs anchors with
  | Except.error e => Except.error e
  | Except.ok hs => Except.ok (dedupFirst hs)

/-- The abstracted network seen by the crawl: for each URL, the word
tokens `re.findall(r'\w+', soup.get_text())` extracts from its page, and
the link list `get_links` extracts from it.  All fetches are assumed to
return status 200 (a non-200 fetch aborts the whole process, per
`get_html_of`). -/
structure Web where
  tokensOf : String → List String
  linksOf : String → List String

/-- The depth clamp of `get_all_words_from` (lines 101-102): when `depth`
reaches the number of extracted links it is replaced by that number minus
one. -/
def effective_depth (nlinks : Nat) (depth : Int) : Int :=
  if depth ≥ (nlinks : Int) then (nlinks : Int) - 1 else depth

/-- The linked pages visited by the loop `for i in range(depth)` (lines
103-107): the first `effective_depth` links in order.  The clamp
guarantees the index `i` stays within the link list, so the loop reads
exactly this prefix; a non-positive effective depth gives an empty
range. -/
def visited_links (w : Web) (url : String) (depth : Int) : List String :=
  (w.linksOf url).take (effective_depth (w.linksOf url).length depth).toNat

/-- `get_all_words_from` (lines 79-109) on a web where every fetch
succeeds: the seed page's tokens followed by the tokens of each visited
linked page, in visit order. -/
def get_all_words_from (w : Web) (url : String) (depth : Int) : List String :=
  w.tokensOf url ++ ((visited_links w url depth).map w.tokensOf).flatten

/-- Python's `string.punctuation`, the 32 ASCII punctuation characters in
order. -/
def punctuation : List Char :=
  ['!', '\x22', '#', '$', '%', '&', '\x27', '(', ')', '*', '+', ',', '-',
   '.', '/', ':', ';', '<', '=', '>', '?', '@', '[', '\\', ']', '^', '_',
   '\x60', '\x7b', '|', '\x7d', '~']

example : punctuation.length = 32 := by decide

/-- The body of the outer loop of `apply_password_mutation` (lines
131-136) for one word, given the four digit draws `randint(0, 9)` and the
punctuation draw `randint(0, len(punctuation) - 1)` of that iteration:
append the decimal representation of each digit draw, then the drawn
punctuation character.  (`word[0].upper()` on line 132 is computed and
discarded; its only observable effect, the `IndexError` on an empty word,
is modelled in `mutate_words`.) -/
def mutate_one (word : String) (d : Nat → Fin 10) (p : Fin punctuation.length) :
    String :=
  ((List.range 4).foldl (fun acc i => acc ++ toString ((d i : Fin 10) : Nat)) word)
    ++ String.singleton (punctuation.get p)

/-- The outer loop of `apply_password_mutation` (lines 131-136) over the
word list, with `j` the index of the current word into the draw streams.
`word[0].upper()` (line 132) raises `IndexError` when the word is empty,
aborting the call; otherwise its result is discarded and the word is
extended by four digits and a punctuation character. -/
def mutate_words (digits : Nat → Nat → Fin 10) (punct : Nat → Fin punctuation.length) :
    Nat → List String → Except Unit (List String)
  | _, [] => Except.ok []
  | j, w :: ws =>
      if w.length = 0 then Except.error ()
      else
        match mutate_words digits punct (j + 1) ws with
        | Except.error e => Except.error e
        | Except.ok rest => Except.ok (mutate_one w (digits j) (punct j) :: rest)

/-- `apply_password_mutation` (lines 125-138): drop the counts (line 129),
then mutate each word in order.  The pseudo-random draws of the unseeded
global generator are abstracted as the streams `digits` (the `i`-th digit
draw for the `j`-th word) and `punct` (the punctuation index draw for the
`j`-th word); their codomains are the ranges `randint` is called with. -/
def apply_password_mutation (word_list : List (String × Nat))
    (digits : Nat → Nat → Fin 10) (punct : Nat → Fin punctuation.length) :
    Except Unit (List String) :=
  mutate_words digits punct 0 (word_list.map Prod.fst)

/-! ### First-occurrence index -/

/-- Index of the first occurrence of `a` in a list (length of the list
when absent).  Used to state "order of first occurrence". -/
def firstIdx (a : String) : List String → Nat
  | [] => 0
  | x :: xs => if x = a then 0 else firstIdx a xs + 1

theorem firstIdx_append_of_not_mem {a : String} {s : List String}
    (h : a ∉ s) (t : List String) :
    firstIdx a (s ++ t) = s.length + firstIdx a t := by
  induction s with
  | nil => simp [firstIdx]
  | cons x xs ih =>
    have hxa : ¬ x = a := fun e => h (by simp [e])
    have hmem : a ∉ xs := fun hm => h (List.mem_cons_of_mem _ hm)
    simp only [List.cons_append, firstIdx, hxa, if_false, List.length_cons,
      List.append_eq]
    rw [ih hmem]
    omega

theorem firstIdx_cons_self (a : String) (xs : List String) :
    firstIdx a (a :: xs) = 0 := by
  simp [firstIdx]

/-! ### The dedup fold -/

/-- Invariant of the `dict.fromkeys` fold: processing the suffix `suf` of
`l` starting from an accumulator holding exactly the distinct elements of
the prefix `pre`, in first-occurrence order, yields the distinct elements
of `l` in first-occurrence order. -/
theorem dstep_fold_spec (l : List String) :
    ∀ (suf pre acc : List String), l = pre ++ suf →
      (∀ y, y ∈ acc ↔ y ∈ pre) →
      acc.Pairwise (fun a b => firstIdx a l < firstIdx b l) →
      (∀ y ∈ acc, firstIdx y l < pre.length) →
      (∀ y, y ∈ suf.foldl dstep acc ↔ y ∈ l)
      ∧ (suf.foldl dstep acc).Pairwise (fun a b => firstIdx a l < firstIdx b l) := by
  intro suf
  induction suf with
  | nil =>
    intro pre acc hl hmem hpair _
    subst hl
    constructor
    · intro y
      simpa using hmem y
    · exact hpair
  | cons x rest ih =>
    intro pre acc hl hmem hpair hbound
    have hfold : (x :: rest).foldl dstep acc = rest.foldl dstep (dstep acc x) := rfl
    rw [hfold]
    by_cases hx : x ∈ acc
    · have hstep : dstep acc x = acc := by simp [dstep, hx]
      rw [hstep]
      refine ih (pre ++ [x]) acc (by rw [hl]; simp) ?_ hpair ?_
      · intro y
        rw [hmem y]
        constructor
        · intro hy; exact List.mem_append_left _ hy
        · intro hy
          rcases List.mem_append.mp hy with hy | hy
          · exact hy
          · have : y = x := by simpa using hy
            subst this
            exact (hmem y).mp hx
      · intro y hy
        have := hbound y hy
        simp only [List.length_append, List.length_cons, List.length_nil]
        omega
    · have hstep : dstep acc x = acc ++ [x] := by simp [dstep, hx]
      rw [hstep]
      have hxpre : x ∉ pre := fun hp => hx ((hmem x).mpr hp)
      have hidx : firstIdx x l = pre.length := by
        rw [hl, firstIdx_append_of_not_mem hxpre, firstIdx_cons_self]
        omega
      refine ih (pre ++ [x]) (acc ++ [x]) (by rw [hl]; simp) ?_ ?_ ?_
      · intro y
        simp only [List.mem_append, List.mem_singleton]
        rw [hmem y]
      · rw [List.pairwise_append]
        refine ⟨hpair, List.pairwise_singleton _ _, ?_⟩
        intro a ha b hb
        have hb' : b = x := by simpa using hb
        subst hb'
        rw [hidx]
        exact hbound a ha
      · intro y hy
        simp only [List.length_append, List.length_cons, List.length_nil]
        rcases List.mem_append.mp hy with hy | hy
        · have := hbound y hy; omega
        · have : y = x := by simpa using hy
          subst this
          omega

/-- `dedupFirst l` has the members of `l` and lists them by strictly
increasing first-occurrence index. -/
theorem dedupFirst_spec (l : List String) :
    (∀ y, y ∈ dedupFirst l ↔ y ∈ l)
    ∧ (dedupFirst l).Pairwise (fun a b => firstIdx a l < firstIdx b l) :=
  dstep_fold_spec l l [] [] rfl (by simp) (by simp) (by simp)

/-- A list pairwise-ordered by a strict measure has no duplicates. -/
theorem nodup_of_pairwise_firstIdx {l m : List String}
    (h : m.Pairwise (fun a b => firstIdx a l < firstIdx b l)) : m.Nodup :=
  h.imp (fun {a b} hab => by
    intro e
    subst e
    exact absurd hab (lt_irrefl _))

/-! ### The counting fold -/

/-- `bump` leaves the key sequence unchanged when the word is already a
key, and appends the word as a new key otherwise. -/
theorem bump_keys (w : String) (tbl : List (String × Nat)) :
    (bump w tbl).map Prod.fst =
      if w ∈ tbl.map Prod.fst then tbl.map Prod.fst
      else tbl.map Prod.fst ++ [w] := by
  induction tbl with
  | nil => simp [bump]
  | cons p rest ih =>
    obtain ⟨x, c⟩ := p
    by_cases hxw : x = w
    · subst hxw
      simp [bump]
    · by_cases hw : w ∈ rest.map Prod.fst
      · simp [bump, hxw, ih, hw, Ne.symm hxw]
      · simp [bump, hxw, ih, hw, Ne.symm hxw]

/-- `bump` adds exactly one to the total of the counts. -/
theorem bump_sum (w : String) (tbl : List (String × Nat)) :
    ((bump w tbl).map Prod.snd).sum = ((tbl.map Prod.snd)).sum + 1 := by
  induction tbl with
  | nil => simp [bump]
  | cons p rest ih =>
    obtain ⟨x, c⟩ := p
    by_cases hxw : x = w
    · subst hxw
      simp [bump]
      omega
    · simp [bump, hxw, ih]
      omega

/-- Invariant of the counting fold of `count_occurrences_in`: after
processing the suffix `suf` of `l` starting from a table whose keys are
exactly the long-enough words of the prefix `pre` in first-occurrence
order, the keys are the long-enough words of `l` in first-occurrence
order. -/
theorem count_fold_spec (l : List String) (k : Int) :
    ∀ (suf pre : List String) (tbl : List (String × Nat)), l = pre ++ suf →
      (∀ y, y ∈ tbl.map Prod.fst ↔ (y ∈ pre ∧ ¬ ((y.length : Int) < k))) →
      (tbl.map Prod.fst).Pairwise (fun a b => firstIdx a l < firstIdx b l) →
      (∀ y ∈ tbl.map Prod.fst, firstIdx y l < pre.length) →
      (∀ y, y ∈ (suf.foldl (count_step k) tbl).map Prod.fst ↔
          (y ∈ l ∧ ¬ ((y.length : Int) < k)))
      ∧ ((suf.foldl (count_step k) tbl).map Prod.fst).Pairwise
          (fun a b => firstIdx a l < firstIdx b l) := by
  intro suf
  induction suf with
  | nil =>
    intro pre tbl hl hmem hpair _
    subst hl
    constructor
    · intro y
      simpa using hmem y
    · exact hpair
  | cons x rest ih =>
    intro pre tbl hl hmem hpair hbound
    have hfold : (x :: rest).foldl (count_step k) tbl
        = rest.foldl (count_step k) (count_step k tbl x) := rfl
    rw [hfold]
    by_cases hshort : (x.length : Int) < k
    · have hstep : count_step k tbl x = tbl := by simp [count_step, hshort]
      rw [hstep]
      refine ih (pre ++ [x]) tbl (by rw [hl]; simp) ?_ hpair ?_
      · intro y
        rw [hmem y]
        constructor
        · intro ⟨hy, hlen⟩
          exact ⟨List.mem_append_left _ hy, hlen⟩
        · intro ⟨hy, hlen⟩
          rcases List.mem_append.mp hy with hy | hy
          · exact ⟨hy, hlen⟩
          · have : y = x := by simpa using hy
            subst this
            exact absurd hshort hlen
      · intro y hy
        have := hbound y hy
        simp only [List.length_append, List.length_cons, List.length_nil]
        omega
    · have hstep : count_step k tbl x = bump x tbl := by simp [count_step, hshort]
      rw [hstep]
      by_cases hx : x ∈ tbl.map Prod.fst
      · have hkeys : (bump x tbl).map Prod.fst = tbl.map Prod.fst := by
          rw [bump_keys]; simp [hx]
        refine ih (pre ++ [x]) (bump x tbl) (by rw [hl]; simp) ?_ ?_ ?_ <;>
          rw [hkeys]
        · intro y
          rw [hmem y]
          constructor
          · intro ⟨hy, hlen⟩
            exact ⟨List.mem_append_left _ hy, hlen⟩
          · intro ⟨hy, hlen⟩
            rcases List.mem_append.mp hy with hy | hy
            · exact ⟨hy, hlen⟩
            · have : y = x := by simpa using hy
              subst this
              exact (hmem y).mp hx
        · exact hpair
        · intro y hy
          have := hbound y hy
          simp only [List.length_append, List.length_cons, List.length_nil]
          omega
      · have hkeys : (bump x tbl).map Prod.fst = tbl.map Prod.fst ++ [x] := by
          rw [bump_keys]; simp [hx]
        have hxpre : x ∉ pre := fun hp => hx ((hmem x).mpr ⟨hp, hshort⟩)
        have hidx : firstIdx x l = pre.length := by
          rw [hl, firstIdx_append_of_not_mem hxpre, firstIdx_cons_self]
          omega
        refine ih (pre ++ [x]) (bump x tbl) (by rw [hl]; simp) ?_ ?_ ?_ <;>
          rw [hkeys]
        · intro y
          simp only [List.mem_append, List.mem_singleton]
          rw [hmem y]
          constructor
          · intro h
            rcases h with ⟨hy, hlen⟩ | he
            · exact ⟨Or.inl hy, hlen⟩
            · subst he
              exact ⟨Or.inr rfl, hshort⟩
          · intro ⟨hy, hlen⟩
            rcases hy with hy | he
            · exact Or.inl ⟨hy, hlen⟩
            · exact Or.inr he
        · rw [List.pairwise_append]
          refine ⟨hpair, List.pairwise_singleton _ _, ?_⟩
          intro a ha b hb
          have hb' : b = x := by simpa using hb
          subst hb'
          rw [hidx]
          exact hbound a ha
        · intro y hy
          simp only [List.length_append, List.length_cons, List.length_nil]
          rcases List.mem_append.mp hy with hy | hy
          · have := hbound y hy; omega
          · have : y = x := by simpa using hy
            subst this
            omega

/-- The keys of the table built by `count_occurrences_in` are exactly the
words of the input that pass the minimum-length filter, listed by
strictly increasing first-occurrence index in the input. -/
theorem count_keys_spec (ws : List String) (k : Int) :
    (∀ y, y ∈ (count_occurrences_in ws k).map Prod.fst ↔
        (y ∈ ws ∧ ¬ ((y.length : Int) < k)))
    ∧ ((count_occurrences_in ws k).map Prod.fst).Pairwise
        (fun a b => firstIdx a ws < firstIdx b ws) :=
  count_fold_spec ws k ws [] [] rfl (by simp) (by simp) (by simp)

/-- Each processed word adds exactly one to the total of the counts, so
the total equals the number of words passing the filter. -/
theorem count_fold_sum (k : Int) :
    ∀ (ws : List String) (tbl : List (String × Nat)),
      ((ws.foldl (count_step k) tbl).map Prod.snd).sum
        = ((tbl.map Prod.snd)).sum
          + (ws.filter (fun w => decide (k ≤ (w.length : Int)))).length := by
  intro ws
  induction ws with
  | nil => intro tbl; simp
  | cons w rest ih =>
    intro tbl
    have hfold : (w :: rest).foldl (count_step k) tbl
        = rest.foldl (count_step k) (count_step k tbl w) := rfl
    rw [hfold, List.filter_cons]
    by_cases hshort : (w.length : Int) < k
    · have hkeep : ¬ (k ≤ (w.length : Int)) := by omega
      have hstep : count_step k tbl w = tbl := by simp [count_step, hshort]
      rw [hstep, ih tbl]
      simp [hkeep]
    · have hkeep : k ≤ (w.length : Int) := by omega
      have hstep : count_step k tbl w = bump w tbl := by simp [count_step, hshort]
      rw [hstep, ih (bump w tbl), bump_sum]
      simp [hkeep]
      omega

/-! ### Stability of the descending sort -/

/-- Inserting an entry of count `c` walks only past entries of strictly
larger count, so the count-`c` slice gains the entry at its front. -/
theorem orderedInsert_filter_eq (p : String × Nat) (c : Nat) (h : p.2 = c) :
    ∀ l : List (String × Nat),
      (List.orderedInsert count_ge p l).filter (fun q => decide (q.2 = c))
        = p :: l.filter (fun q => decide (q.2 = c))
  | [] => by simp [h]
  | b :: bl => by
    by_cases hr : count_ge p b
    · simp [List.orderedInsert, hr, List.filter_cons, h]
    · have hb : ¬ (b.2 = c) := by
        subst h
        simp only [count_ge, not_le] at hr
        omega
      simp [List.orderedInsert, hr, List.filter_cons, hb, h,
        orderedInsert_filter_eq p c h bl]

/-- Inserting an entry of a different count leaves the count-`c` slice
unchanged. -/
theorem orderedInsert_filter_ne (p : String × Nat) (c : Nat) (h : ¬ p.2 = c) :
    ∀ l : List (String × Nat),
      (List.orderedInsert count_ge p l).filter (fun q => decide (q.2 = c))
        = l.filter (fun q => decide (q.2 = c))
  | [] => by simp [h]
  | b :: bl => by
    by_cases hr : count_ge p b
    · simp [List.orderedInsert, hr, List.filter_cons, h]
    · simp [List.orderedInsert, hr, List.filter_cons,
        orderedInsert_filter_ne p c h bl]

/-- Stability of the descending sort: the entries of any fixed count
appear in the sorted output exactly as they appear in the input. -/
theorem insertionSort_filter_count (c : Nat) :
    ∀ l : List (String × Nat),
      (List.insertionSort count_ge l).filter (fun q => decide (q.2 = c))
        = l.filter (fun q => decide (q.2 = c))
  | [] => rfl
  | p :: pl => by
    by_cases h : p.2 = c
    · simp only [List.insertionSort]
      rw [orderedInsert_filter_eq p c h, insertionSort_filter_count c pl,
        List.filter_cons]
      simp [h]
    · simp only [List.insertionSort]
      rw [orderedInsert_filter_ne p c h, insertionSort_filter_count c pl,
        List.filter_cons]
      simp [h]

/-- If every fixed-count slice of a list is pairwise related by `R`, then
any two entries of equal count in the list are related by `R`. -/
theorem pairwise_of_filter_pairwise (R : (String × Nat) → (String × Nat) → Prop) :
    ∀ m : List (String × Nat),
      (∀ c, (m.filter (fun q => decide (q.2 = c))).Pairwise R) →
      m.Pairwise (fun p q => p.2 = q.2 → R p q)
  | [] => fun _ => List.Pairwise.nil
  | a :: m => fun h => by
    constructor
    · intro b hb heq
      have ha := h a.2
      rw [List.filter_cons, if_pos (by simp)] at ha
      have hmem : b ∈ m.filter (fun q => decide (q.2 = a.2)) :=
        List.mem_filter.mpr ⟨hb, by simp [heq]⟩
      exact (List.pairwise_cons.mp ha).1 b hmem
    · refine pairwise_of_filter_pairwise R m (fun c => ?_)
      have hc := h c
      rw [List.filter_cons] at hc
      by_cases hac : a.2 = c
      · rw [if_pos (by simp [hac])] at hc
        exact (List.pairwise_cons.mp hc).2
      · rw [if_neg (by simp [hac])] at hc
        exact hc

/-! ### The ranking claims -/

/-- C1: for every token list and every minimum length, the ranked list
returned by `get_top_words_from` is sorted by count in non-increasing
order, and the sum of the counts over all of its entries equals the
number of tokens in the input whose length is at least the minimum
length. -/
theorem ranked_sorted_and_counts_total (ws : List String) (k : Int) :
    (get_top_words_from ws k).Pairwise (fun p q => q.2 ≤ p.2)
    ∧ ((get_top_words_from ws k).map Prod.snd).sum
        = (ws.filter (fun w => decide (k ≤ (w.length : Int)))).length := by
  constructor
  · exact List.sorted_insertionSort count_ge _
  · have h1 : ((get_top_words_from ws k).map Prod.snd).sum
        = ((count_occurrences_in ws k).map Prod.snd).sum :=
      List.Perm.sum_eq
        ((List.perm_insertionSort count_ge (count_occurrences_in ws k)).map
          Prod.snd)
    have h2 := count_fold_sum k ws []
    simp only [List.map_nil, List.sum_nil, Nat.zero_add] at h2
    exact h1.trans h2

/-- C2: for every token list and every minimum length `k ≥ 0`, no token
of length less than `k` appears among the table keys built by
`count_occurrences_in`, nor in the ranked output of
`get_top_words_from`. -/
theorem short_tokens_excluded (ws : List String) (k : Int) (hk : 0 ≤ k) :
    (∀ w ∈ (count_occurrences_in ws k).map Prod.fst, ¬ ((w.length : Int) < k))
    ∧ (∀ p ∈ get_top_words_from ws k, ¬ ((((p : String × Nat).1.length : Int)) < k)) := by
  constructor
  · intro w hw
    exact (((count_keys_spec ws k).1 w).mp hw).2
  · intro p hp
    have hp' : p ∈ count_occurrences_in ws k :=
      (List.perm_insertionSort count_ge _).mem_iff.mp hp
    have hmem : p.1 ∈ (count_occurrences_in ws k).map Prod.fst :=
      List.mem_map_of_mem Prod.fst hp'
    exact (((count_keys_spec ws k).1 p.1).mp hmem).2

theorem short_tokens_excluded_witness :
    (0 : Int) ≤ 2
    ∧ ((∀ w ∈ (count_occurrences_in ["a", "bb"] 2).map Prod.fst,
          ¬ ((w.length : Int) < 2))
       ∧ (∀ p ∈ get_top_words_from ["a", "bb"] 2,
          ¬ ((((p : String × Nat).1.length : Int)) < 2))) :=
  ⟨by decide, short_tokens_excluded ["a", "bb"] 2 (by decide)⟩

/-- C9: on the tokenization of "Cat cat dog DOG dog" with minimum length
0, the table maps "dog" to 2 and "DOG", "Cat", "cat" to 1 each (case
sensitivity keeps "Cat" and "cat" apart), has no other keys, and the
ranked list starts with ("dog", 2). -/
theorem cat_dog_scenario :
    (count_occurrences_in ["Cat", "cat", "dog", "DOG", "dog"] 0).lookup "dog"
        = some 2
    ∧ (count_occurrences_in ["Cat", "cat", "dog", "DOG", "dog"] 0).lookup "DOG"
        = some 1
    ∧ (count_occurrences_in ["Cat", "cat", "dog", "DOG", "dog"] 0).lookup "Cat"
        = some 1
    ∧ (count_occurrences_in ["Cat", "cat", "dog", "DOG", "dog"] 0).lookup "cat"
        = some 1
    ∧ (count_occurrences_in ["Cat", "cat", "dog", "DOG", "dog"] 0).length = 4
    ∧ (get_top_words_from ["Cat", "cat", "dog", "DOG", "dog"] 0).head?
        = some ("dog", 2) := by
  decide

/-- C10: entries of the ranked output with equal counts appear in the
order of the first occurrence of their tokens in the input list: the
count table records distinct tokens in first-occurrence order and the
descending sort is stable. -/
theorem ranked_ties_first_occurrence (ws : List String) (k : Int) :
    (get_top_words_from ws k).Pairwise
      (fun p q => p.2 = q.2 → firstIdx p.1 ws < firstIdx q.1 ws) := by
  refine pairwise_of_filter_pairwise _ _ (fun c => ?_)
  have hpair : (count_occurrences_in ws k).Pairwise
      (fun p q => firstIdx p.1 ws < firstIdx q.1 ws) :=
    List.Pairwise.of_map Prod.fst (fun _ _ h => h) (count_keys_spec ws k).2
  have hfilter :
      ((count_occurrences_in ws k).filter (fun q => decide (q.2 = c))).Pairwise
        (fun p q => firstIdx p.1 ws < firstIdx q.1 ws) :=
    List.Pairwise.sublist (List.filter_sublist (count_occurrences_in ws k)) hpair
  simp only [get_top_words_from]
  rw [insertionSort_filter_count]
  exact hfilter

/-! ### The link extractor -/

/-- The candidate link sequence of a document whose anchors all carry
`href`: the `href` values that start with `"http"`, in document order. -/
def http_hrefs (anchors : Anchors) : List String :=
  (anchors.filterMap id).filter (fun u => u.startsWith "http")

/-- When every anchor has an `href`, the extraction loop succeeds and
yields the `http`-prefixed values in document order. -/
theorem extract_hrefs_ok {anchors : Anchors} (h : none ∉ anchors) :
    extract_hrefs anchors = Except.ok (http_hrefs anchors) := by
  induction anchors with
  | nil => rfl
  | cons a rest ih =>
    cases a with
    | none => exact absurd (List.mem_cons_self _ _) h
    | some s =>
      have h' : none ∉ rest := fun hm => h (List.mem_cons_of_mem _ hm)
      by_cases hs : s.startsWith "http" <;>
        simp [extract_hrefs, ih h', http_hrefs, List.filterMap_cons,
          List.filter_cons, hs]

/-- The extraction loop fails exactly when some anchor lacks `href`. -/
theorem extract_hrefs_error_iff (anchors : Anchors) :
    extract_hrefs anchors = Except.error () ↔ none ∈ anchors := by
  induction anchors with
  | nil => simp [extract_hrefs]
  | cons a rest ih =>
    cases a with
    | none => simp [extract_hrefs]
    | some s =>
      rw [List.mem_cons]
      simp only [extract_hrefs]
      cases hres : extract_hrefs rest with
      | error e =>
        cases e
        have hmem : none ∈ rest := ih.mp hres
        simp [hmem]
      | ok tail =>
        have hnot : none ∉ rest := fun hm =>
          Except.noConfusion ((ih.mpr hm).symm.trans hres)
        simp [hnot]

/-- C8: `get_links` fails (the `AttributeError` raised by
`link.get('href').startswith` on a missing attribute) exactly when some
anchor has no `href` attribute; it returns a list exactly when every
anchor carries one. -/
theorem get_links_error_iff (anchors : Anchors) :
    get_links anchors = Except.error () ↔ none ∈ anchors := by
  rw [← extract_hrefs_error_iff]
  simp only [get_links]
  cases hres : extract_hrefs anchors with
  | error e => cases e; simp
  | ok hs => simp

/-- C3: when every anchor has an `href` attribute, `get_links` returns a
list without duplicates containing exactly the `href` values that begin
with "http", listed by strictly increasing first-occurrence position in
the document's candidate sequence. -/
theorem get_links_spec (anchors : Anchors) (h : none ∉ anchors) :
    ∃ out, get_links anchors = Except.ok out
      ∧ out.Nodup
      ∧ (∀ u, u ∈ out ↔ (some u ∈ anchors ∧ u.startsWith "http" = true))
      ∧ out.Pairwise (fun a b =>
          firstIdx a (http_hrefs anchors) < firstIdx b (http_hrefs anchors)) := by
  refine ⟨dedupFirst (http_hrefs anchors), ?_, ?_, ?_, (dedupFirst_spec _).2⟩
  · simp [get_links, extract_hrefs_ok h]
  · exact nodup_of_pairwise_firstIdx (dedupFirst_spec _).2
  · intro u
    rw [(dedupFirst_spec _).1 u]
    simp [http_hrefs, List.mem_filter, List.mem_filterMap]

theorem get_links_spec_witness :
    none ∉ ([some "http://a", some "x", some "http://a", some "http://b"] : Anchors)
    ∧ ∃ out,
        get_links [some "http://a", some "x", some "http://a", some "http://b"]
          = Except.ok out
        ∧ out.Nodup
        ∧ (∀ u, u ∈ out ↔
            (some u ∈ ([some "http://a", some "x", some "http://a",
                some "http://b"] : Anchors)
             ∧ u.startsWith "http" = true))
        ∧ out.Pairwise (fun a b =>
            firstIdx a (http_hrefs [some "http://a", some "x", some "http://a",
                some "http://b"])
              < firstIdx b (http_hrefs [some "http://a", some "x",
                some "http://a", some "http://b"])) :=
  ⟨by decide, get_links_spec _ (by decide)⟩

/-! ### The fetcher -/

/-- C7: `get_html_of` terminates the process with exit code 1 after
printing a diagnostic exactly when the response status is not 200, and
returns the decoded body when the status is 200. -/
theorem get_html_of_spec (r : HttpResponse) :
    ((∃ msg, get_html_of r = FetchResult.exited 1 msg) ↔ r.status_code ≠ 200)
    ∧ (r.status_code = 200 → get_html_of r = FetchResult.ok r.content) := by
  by_cases h : r.status_code = 200
  · refine ⟨⟨?_, fun hne => absurd h hne⟩, fun _ => by simp [get_html_of, h]⟩
    intro ⟨msg, hmsg⟩
    simp [get_html_of, h] at hmsg
  · refine ⟨⟨fun _ => h,
      fun _ => ⟨"HTTP status code of " ++ toString r.status_code ++
        " returned, expected 200...Exiting.", by simp [get_html_of, h]⟩⟩,
      fun h200 => absurd h200 h⟩

theorem get_html_of_spec_witness :
    (∃ msg, get_html_of ⟨404, "body"⟩ = FetchResult.exited 1 msg)
    ∧ get_html_of ⟨200, "body"⟩ = FetchResult.ok "body" :=
  ⟨(get_html_of_spec ⟨404, "body"⟩).1.mpr (by decide),
   (get_html_of_spec ⟨200, "body"⟩).2 rfl⟩

/-! ### The crawl -/

/-- C4: whenever `depth` is at least the number of extracted links, the
crawl visits `number_of_links - 1` linked pages beyond the seed (natural
subtraction), and therefore not all of them whenever at least one link
was extracted. -/
theorem crawl_depth_clamp (w : Web) (url : String) (depth : Int)
    (h : ((w.linksOf url).length : Int) ≤ depth) :
    (visited_links w url depth).length = (w.linksOf url).length - 1
    ∧ ((w.linksOf url).length ≠ 0 →
        (visited_links w url depth).length < (w.linksOf url).length) := by
  have hlen : (visited_links w url depth).length
      = (w.linksOf url).length - 1 := by
    have heff : effective_depth (w.linksOf url).length depth
        = ((w.linksOf url).length : Int) - 1 := by
      simp [effective_depth, h]
    have htn : (((w.linksOf url).length : Int) - 1).toNat
        = (w.linksOf url).length - 1 := by omega
    rw [visited_links, heff, htn, List.length_take]
    omega
  exact ⟨hlen, fun hne => by rw [hlen]; omega⟩

/-- A fixed two-page web used to instantiate the crawl theorems: the
seed links to two pages, every other page has no links. -/
def webW : Web where
  tokensOf := fun u => if u = "seed" then ["s"] else ["t"]
  linksOf := fun u => if u = "seed" then ["u1", "u2"] else []

theorem crawl_depth_clamp_witness :
    ((webW.linksOf "seed").length : Int) ≤ 2
    ∧ ((visited_links webW "seed" 2).length = (webW.linksOf "seed").length - 1
       ∧ ((webW.linksOf "seed").length ≠ 0 →
          (visited_links webW "seed" 2).length < (webW.linksOf "seed").length)) :=
  ⟨by decide, crawl_depth_clamp webW "seed" 2 (by decide)⟩

/-- C5: with depth 0, and likewise for any seed page whose extracted
link list is empty, the crawl returns exactly the seed page's tokens and
visits no linked page. -/
theorem crawl_seed_only (w : Web) (url : String) (depth : Int)
    (h : depth = 0 ∨ w.linksOf url = []) :
    get_all_words_from w url depth = w.tokensOf url
    ∧ visited_links w url depth = [] := by
  have hvis : visited_links w url depth = [] := by
    rcases h with h | h
    · subst h
      by_cases hlen : (w.linksOf url).length = 0
      · simp [visited_links, effective_depth, hlen]
      · have hpos : 0 < (w.linksOf url).length := Nat.pos_of_ne_zero hlen
        have hcond : ¬ ((0 : Int) ≥ ((w.linksOf url).length : Int)) := by
          omega
        simp only [visited_links, effective_depth]
        rw [if_neg hcond]
        simp
    · simp [visited_links, h]
  exact ⟨by simp [get_all_words_from, hvis], hvis⟩

theorem crawl_seed_only_witness :
    ((5 : Int) = 0 ∨ webW.linksOf "other" = [])
    ∧ (get_all_words_from webW "other" 5 = webW.tokensOf "other"
       ∧ visited_links webW "other" 5 = []) :=
  ⟨Or.inr (by decide), crawl_seed_only webW "other" 5 (Or.inr (by decide))⟩

/-! ### The password mutator -/

theorem string_append_data (a b : String) : (a ++ b).data = a.data ++ b.data :=
  rfl

theorem string_eq_of_data {a b : String} (h : a.data = b.data) : a = b := by
  cases a
  cases b
  exact congrArg String.mk h

theorem string_length_zero_iff (w : String) : w.length = 0 ↔ w = "" := by
  cases w with
  | mk d =>
    constructor
    · intro h
      have hd : d = [] := List.length_eq_zero.mp h
      subst hd
      rfl
    · intro h
      rw [h]
      rfl

/-- `str(randint(0, 9))`: the decimal representation of a digit draw is a
single decimal-digit character. -/
theorem digit_str_facts :
    ∀ j : Fin 10, (toString (j : Nat)).data.length = 1
      ∧ ∀ c ∈ (toString (j : Nat)).data, c.isDigit = true := by
  decide

/-- Unfolding the four-iteration digit loop of `apply_password_mutation`. -/
theorem mutate_one_eq (w : String) (d : Nat → Fin 10)
    (p : Fin punctuation.length) :
    mutate_one w d p
      = w ++ toString ((d 0 : Fin 10) : Nat) ++ toString ((d 1 : Fin 10) : Nat)
          ++ toString ((d 2 : Fin 10) : Nat) ++ toString ((d 3 : Fin 10) : Nat)
          ++ String.singleton (punctuation.get p) :=
  rfl

/-- Shape of one password candidate relative to its source word: the word
itself, unchanged, followed by four decimal digits and one character of
`punctuation`, five characters in all. -/
def pw_shape (w s : String) : Prop :=
  ∃ c0 c1 c2 c3 c,
    c0.isDigit = true ∧ c1.isDigit = true ∧ c2.isDigit = true
    ∧ c3.isDigit = true ∧ c ∈ punctuation
    ∧ s = w ++ String.mk [c0, c1, c2, c3, c]
    ∧ s.length = w.length + 5

theorem mutate_one_shape (w : String) (d : Nat → Fin 10)
    (p : Fin punctuation.length) : pw_shape w (mutate_one w d p) := by
  obtain ⟨h0len, h0dig⟩ := digit_str_facts (d 0)
  obtain ⟨h1len, h1dig⟩ := digit_str_facts (d 1)
  obtain ⟨h2len, h2dig⟩ := digit_str_facts (d 2)
  obtain ⟨h3len, h3dig⟩ := digit_str_facts (d 3)
  obtain ⟨c0, hc0⟩ := List.length_eq_one.mp h0len
  obtain ⟨c1, hc1⟩ := List.length_eq_one.mp h1len
  obtain ⟨c2, hc2⟩ := List.length_eq_one.mp h2len
  obtain ⟨c3, hc3⟩ := List.length_eq_one.mp h3len
  have heq : mutate_one w d p = w ++ String.mk [c0, c1, c2, c3, punctuation.get p] := by
    apply string_eq_of_data
    rw [mutate_one_eq]
    simp only [string_append_data, hc0, hc1, hc2, hc3]
    simp [String.singleton]
  refine ⟨c0, c1, c2, c3, punctuation.get p,
    h0dig c0 (by rw [hc0]; exact List.mem_singleton_self _),
    h1dig c1 (by rw [hc1]; exact List.mem_singleton_self _),
    h2dig c2 (by rw [hc2]; exact List.mem_singleton_self _),
    h3dig c3 (by rw [hc3]; exact List.mem_singleton_self _),
    List.get_mem punctuation p.1 p.2, heq, ?_⟩
  rw [heq]
  show (w ++ String.mk [c0, c1, c2, c3, punctuation.get p]).data.length
      = w.data.length + 5
  rw [string_append_data, List.length_append]
  rfl

/-- The word loop of `apply_password_mutation` succeeds on nonempty words
and pairs each word, in order, with a candidate of the mutated shape. -/
theorem mutate_words_ok (digits : Nat → Nat → Fin 10)
    (punct : Nat → Fin punctuation.length) :
    ∀ (ws : List String) (j : Nat), (∀ w ∈ ws, w ≠ "") →
      ∃ out, mutate_words digits punct j ws = Except.ok out
        ∧ List.Forall₂ pw_shape ws out
  | [], _, _ => ⟨[], rfl, List.Forall₂.nil⟩
  | w :: ws, j, h => by
    have hw : w ≠ "" := h w (List.mem_cons_self _ _)
    have hwlen : ¬ w.length = 0 := fun h0 => hw ((string_length_zero_iff w).mp h0)
    obtain ⟨out, hok, hshape⟩ := mutate_words_ok digits punct ws (j + 1)
      (fun v hv => h v (List.mem_cons_of_mem _ hv))
    refine ⟨mutate_one w (digits j) (punct j) :: out, ?_,
      List.Forall₂.cons (mutate_one_shape w (digits j) (punct j)) hshape⟩
    simp only [mutate_words, hwlen, if_false, hok]

/-- C6 (amended): for every ranked list whose tokens are all nonempty,
`apply_password_mutation` returns exactly one candidate per input token,
in the same order; each candidate is the source token unchanged (the
upper-casing of its first character is computed but never applied)
followed by four decimal-digit characters and one ASCII punctuation
character, so its length is the token's length plus 5. -/
theorem password_mutation_shape (wl : List (String × Nat))
    (digits : Nat → Nat → Fin 10) (punct : Nat → Fin punctuation.length)
    (h : ∀ p ∈ wl, (p : String × Nat).1 ≠ "") :
    ∃ out, apply_password_mutation wl digits punct = Except.ok out
      ∧ List.Forall₂ (fun p s => pw_shape (p : String × Nat).1 s) wl out := by
  obtain ⟨out, hok, hshape⟩ := mutate_words_ok digits punct (wl.map Prod.fst) 0
    (fun w hw => by
      obtain ⟨p, hp, hpe⟩ := List.mem_map.mp hw
      rw [← hpe]
      exact h p hp)
  exact ⟨out, hok, List.forall₂_map_left_iff.mp hshape⟩

theorem password_mutation_shape_witness :
    (∀ p ∈ ([("ab", 2)] : List (String × Nat)), (p : String × Nat).1 ≠ "")
    ∧ ∃ out,
        apply_password_mutation [("ab", 2)] (fun _ _ => 0) (fun _ => ⟨0, by decide⟩)
          = Except.ok out
        ∧ List.Forall₂ (fun p s => pw_shape (p : String × Nat).1 s)
            [("ab", 2)] out :=
  ⟨by decide, password_mutation_shape _ _ _ (by decide)⟩

/-- C6, as stated, fails on a ranked list containing an empty token: on
`[("", 1)]` the source raises `IndexError` at `word[0].upper()` and
returns no candidate list at all. -/
theorem password_mutation_empty_token :
    apply_password_mutation [("", 1)] (fun _ _ => 0) (fun _ => ⟨0, by decide⟩)
      = Except.error () :=
  rfl
